import Mathlib

/-!
Verification of the mct-rs Monte Carlo Tree Search core.

The Rust sources are embedded shallowly:
* f64 tree statistics (visit counts, cumulative scores, rewards,
  transition probabilities) are modelled as exact rationals;
  the transcendental UCB1 score (ln / sqrt) is modelled over the reals.
* Interior mutability (Rc/RefCell) is modelled by explicit state passing:
  tree-mutating operations take a node (or a whole tree plus a path of
  child indices) and return the updated value.
* The random source (rand.rs genrand, backed by getrandom) is modelled by
  an entropy stream sigma : Nat -> Nat together with a counter k that is
  incremented once per draw; genrand receives the raw accepted sample
  (the rejection-sampling retry loop of rand.rs only discards biased raw
  samples and is abstracted away).
* A Rust panic (assert failure, unwrap on None, out-of-bounds index) is
  modelled by returning none.
-/

namespace Mct

/-- strategy.rs: the four final-action-selection strategies. -/
inductive Strategy : Type where
  | MostVisited
  | HighestQValue
  | Probabilistic
  | HeuristicWin

/-- node.rs Node, together with the two extra fields its callers use:
ucb1.rs reads a numeric node id (node.id) and mcts.rs reads the stored
immediate transition reward (child.reward).  Fields: state, id, the action
that produced this node (absent for root), the immediate transition reward
recorded at creation, visit count, cumulative score, ordered children.
The parent back-reference is represented externally by paths of child
indices from the root. -/
inductive Node (S A : Type) : Type where
  | mk (state : S) (id : ℕ) (action : Option A) (reward : Option ℚ)
      (visits : ℕ) (score : ℚ) (children : List (Node S A)) : Node S A

namespace Node

variable {S A : Type}

def state : Node S A → S
  | .mk s _ _ _ _ _ _ => s

def id : Node S A → ℕ
  | .mk _ i _ _ _ _ _ => i

def action : Node S A → Option A
  | .mk _ _ a _ _ _ _ => a

def reward : Node S A → Option ℚ
  | .mk _ _ _ r _ _ _ => r

def visits : Node S A → ℕ
  | .mk _ _ _ _ v _ _ => v

def score : Node S A → ℚ
  | .mk _ _ _ _ _ q _ => q

def children : Node S A → List (Node S A)
  | .mk _ _ _ _ _ _ c => c

/-- node.rs q_value: score / visits, and 0 for an unvisited node. -/
def q_value (n : Node S A) : ℚ :=
  if n.visits = 0 then 0 else n.score / (n.visits : ℚ)

/-- Rebuild a node with new visit count, score and children,
keeping all other fields. -/
def withStats (n : Node S A) (v : ℕ) (q : ℚ) (c : List (Node S A)) : Node S A :=
  match n with
  | .mk s i a r _ _ _ => .mk s i a r v q c

end Node

/-- rand.rs genrand(min, max): asserts min < max (else the process
aborts, modelled as none), then rejection-samples an unbiased raw value
and returns min + value % range.  The argument e is the accepted raw
entropy sample. -/
def genrand (min max e : ℕ) : Option ℕ :=
  if min < max then some (min + e % (max - min)) else none

/-- mdp.rs: the MDP trait, as a record of its methods. -/
structure MDP (S A : Type) : Type where
  get_actions : S → List A
  get_transitions : S → A → List (S × ℚ)
  get_reward : S → A → S → ℚ
  is_terminal : S → Bool
  get_discount_factor : ℚ
  get_initial_state : S

/-- mdp.rs execute: the transitions.iter().position(..) scan with the
running cumulative probability, returning the index of the first
transition whose cumulative probability meets or exceeds r. -/
def positionCum {α : Type} : List (α × ℚ) → ℚ → ℚ → Option ℕ
  | [], _, _ => none
  | x :: rest, r, acc =>
    if acc + x.2 ≥ r then some 0
    else (positionCum rest r (acc + x.2)).map (· + 1)

/-- mdp.rs execute(state, action): draws r = genrand(0,1000)/1000,
scans the cumulative distribution of get_transitions (empty transition
list aborts via assert), picks the first outcome whose cumulative
probability meets or exceeds r (fallback index 0 via unwrap_or), and
returns the chosen state with its reward and terminal flag.  One entropy
draw is consumed. -/
def MDP.execute {S A : Type} (m : MDP S A) (s : S) (a : A)
    (σ : ℕ → ℕ) (k : ℕ) : Option ((S × ℚ × Bool) × ℕ) :=
  match m.get_transitions s a with
  | [] => none
  | t0 :: ts =>
    match genrand 0 1000 (σ k) with
    | none => none
    | some g =>
      let r : ℚ := (g : ℚ) / 1000
      let idx := (positionCum (t0 :: ts) r 0).getD 0
      let chosen := ((t0 :: ts).get? idx).getD t0
      some ((chosen.1, m.get_reward s a chosen.1, m.is_terminal chosen.1), k + 1)

/-- policy.rs RandomRollout::pick: one candidate short-circuits without a
draw; otherwise one uniform index draw (an empty candidate list aborts
inside genrand).  Returns the picked action and the new entropy counter. -/
def RandomRollout.pick {S A : Type} (_s : S) (actions : List A)
    (σ : ℕ → ℕ) (k : ℕ) : Option (A × ℕ) :=
  if actions.length = 1 then (actions.get? 0).map (fun a => (a, k))
  else (genrand 0 actions.length (σ k)).bind fun i =>
    (actions.get? i).map (fun a => (a, k + 1))

/-- ucb1.rs q_table: HashMap from node ids to q-values, as an association
list.  UCB1::update exists in the source but is never called anywhere in
the crate, so during a search the table keeps whatever contents it was
created with (Default gives the empty table). -/
def QTable : Type := List (ℕ × ℚ)

/-- ucb1.rs get_q_value: table lookup with default 0.0. -/
def getQValue (qt : QTable) (i : ℕ) : ℚ :=
  ((List.lookup i (qt : List (ℕ × ℚ))).getD 0)

/-- ucb1.rs line 59: the exploration constant literal
1.4142135623730951 (the f64 closest to the square root of two). -/
def UCB1.C : ℚ := 1.4142135623730951

/-- f64::EPSILON = 2^(-52), the tie tolerance used in ucb1.rs select. -/
def f64Epsilon : ℚ := 1 / 2 ^ 52

variable {S A : Type}

/-- ucb1.rs lines 72-75: the value computed for one scored child —
q_table lookup by the child id, plus C * sqrt(ln(total.max(1)) / n_i),
where total is the sum of the visit counts of all the node's children. -/
noncomputable def ucbValue (qt : QTable) (total : ℕ) (c : Node S A) : ℝ :=
  (getQValue qt c.id : ℝ) +
    (UCB1.C : ℝ) * Real.sqrt (Real.log (max (total : ℝ) 1) / (c.visits : ℝ))

/-- ucb1.rs lines 61-84: the scoring loop over the node's children.
The accumulator bestV models best_value, with none standing for the
initial f64::NEG_INFINITY (any finite value compares greater than it, and
no finite value is within EPSILON of it); best models best_actions.
A zero-visit child short-circuits (Sum.inl); child.action.unwrap() on a
None action aborts (none). -/
noncomputable def scoreLoop (qt : QTable) (total : ℕ) :
    List (Node S A) → Option ℝ → List A → Option (A ⊕ List A)
  | [], _, best => some (Sum.inr best)
  | c :: cs, bestV, best =>
    if c.visits = 0 then
      match c.action with
      | none => none
      | some a => some (Sum.inl a)
    else
      let v := ucbValue qt total c
      match bestV with
      | none =>
        match c.action with
        | none => none
        | some a => scoreLoop qt total cs (some v) [a]
      | some bv =>
        if v > bv then
          match c.action with
          | none => none
          | some a => scoreLoop qt total cs (some v) [a]
        else if |v - bv| < (f64Epsilon : ℝ) then
          match c.action with
          | none => none
          | some a => scoreLoop qt total cs (some bv) (best ++ [a])
        else scoreLoop qt total cs (some bv) best

/-- ucb1.rs lines 35-88, UCB1::select: return the first untried action if
any; otherwise run the scoring loop (zero-visit children short-circuit)
and pick uniformly among the collected best actions (one entropy draw;
an empty best list aborts inside genrand). -/
noncomputable def UCB1.select [DecidableEq A] (qt : QTable) (node : Node S A)
    (actions : List A) (σ : ℕ → ℕ) (k : ℕ) : Option (A × ℕ) :=
  match actions.find? (fun a => ! node.children.any fun c => decide (c.action = some a)) with
  | some untried => some (untried, k)
  | none =>
    let total := (node.children.map Node.visits).sum
    match scoreLoop qt total node.children none [] with
    | none => none
    | some (Sum.inl a) => some (a, k)
    | some (Sum.inr best) =>
      (genrand 0 best.length (σ k)).bind fun i =>
        (best.get? i).map (fun a => (a, k + 1))

/-- Modelled from the spec: the per-child score that claim C1 asserts the
bandit computes — mean_reward(child) + C * sqrt(ln(max(N_parent,1)) /
max(N_child,1)) with mean_reward = score/visits (0 if unvisited),
N_parent the parent node's own visit count and C the square root of two.
This definition follows the spec's words; it exists only to be compared
against ucbValue, which follows the source. -/
noncomputable def specUcbScore (parent c : Node S A) : ℝ :=
  (if c.visits = 0 then (0 : ℝ) else (c.score : ℝ) / (c.visits : ℝ)) +
    Real.sqrt 2 *
      Real.sqrt (Real.log (max (parent.visits : ℝ) 1) / max (c.visits : ℝ) 1)

/-- node.rs lines 72-78: the linear scan for the first child whose action
equals Some(action); returns its index in the children list. -/
def firstChildWith [DecidableEq A] (a : A) : List (Node S A) → Option ℕ
  | [] => none
  | c :: cs =>
    if c.action = some a then some 0 else (firstChildWith a cs).map (· + 1)

/-- node.rs lines 63-97, Node::get_outcome_child: FIRST samples one
outcome via mdp.execute (consuming one entropy draw even when the child
already exists), then scans the children for one produced by this action
and returns it unchanged if found; otherwise creates a new child carrying
the sampled state, the action, the sampled reward (node.rs Node::new
stores the reward argument as the initial score; the newer reward field
read by mcts.rs carries the same value) and appends it.  Returns the
child's index in the updated children list, the updated parent, the next
fresh id, and the new entropy counter. -/
def get_outcome_child [DecidableEq A] (m : MDP S A) (node : Node S A) (a : A)
    (nid : ℕ) (σ : ℕ → ℕ) (k : ℕ) : Option (ℕ × Node S A × ℕ × ℕ) :=
  match m.execute node.state a σ k with
  | none => none
  | some ((next_state, rew, _), k1) =>
    match firstChildWith a node.children with
    | some idx => some (idx, node, nid, k1)
    | none =>
      let child : Node S A := .mk next_state nid (some a) (some rew) 0 rew []
      some (node.children.length,
        node.withStats node.visits node.score (node.children ++ [child]),
        nid + 1, k1)

/-- node.rs lines 178-188, Node::is_full_expanded: compares the number of
legal actions with the number of children carrying an action. -/
def is_full_expanded (m : MDP S A) (node : Node S A) : Bool :=
  (m.get_actions node.state).length =
    (node.children.filterMap Node.action).length

/-- Node addressing: follow a path of child indices from the given root. -/
def subtreeAt : List ℕ → Node S A → Option (Node S A)
  | [], t => some t
  | i :: p, t => (t.children.get? i).bind (subtreeAt p)

/-- node.rs lines 168-175, Node::back_propagate: starting from the node at
the given path, add 1 to the visit count and the reward to the score of
that node and of every ancestor up to the root.  The Rust code walks
upward through parent references; here the same per-node updates are
applied along the root-to-node path, which touches exactly the same set
of nodes. -/
def back_propagate (r : ℚ) : List ℕ → Node S A → Node S A
  | [], t => t.withStats (t.visits + 1) (t.score + r) t.children
  | i :: p, t =>
    t.withStats (t.visits + 1) (t.score + r)
      (match t.children.get? i with
       | some c => t.children.set i (back_propagate r p c)
       | none => t.children)

/-- Replace the node found at the given path (identity if the path does
not resolve).  Used to write back a locally-updated node into the tree. -/
def replaceAt (n2 : Node S A) : List ℕ → Node S A → Node S A
  | [], _ => n2
  | i :: p, t =>
    match t.children.get? i with
    | some c => t.withStats t.visits t.score (t.children.set i (replaceAt n2 p c))
    | none => t

/-- node.rs lines 119-134, Node::select: stop at a node that is not fully
expanded or is terminal; otherwise ask the bandit for an action, obtain
or create the child, and recurse into it.  Returns the path (child
indices) from the given node to the selected node, the updated subtree,
the next fresh id and the entropy counter.  The fuel argument bounds the
recursion depth (the Rust recursion is bounded by the finite tree). -/
noncomputable def selectPath [DecidableEq A] (m : MDP S A) (qt : QTable) (σ : ℕ → ℕ) :
    ℕ → Node S A → ℕ → ℕ → Option (List ℕ × Node S A × ℕ × ℕ)
  | 0, _, _, _ => none
  | fuel + 1, node, nid, k =>
    if !(is_full_expanded m node) || m.is_terminal node.state then
      some ([], node, nid, k)
    else
      match UCB1.select qt node (m.get_actions node.state) σ k with
      | none => none
      | some (a, k1) =>
        match get_outcome_child m node a nid σ k1 with
        | none => none
        | some (idx, node1, nid1, k2) =>
          match node1.children.get? idx with
          | none => none
          | some c =>
            match selectPath m qt σ fuel c nid1 k2 with
            | none => none
            | some (sub, c2, nid2, k3) =>
              some (idx :: sub,
                node1.withStats node1.visits node1.score
                  (node1.children.set idx c2), nid2, k3)

/-- node.rs lines 136-165, Node::expand: a terminal node returns itself
(index none); otherwise the legal actions with no existing child are
collected, the rollout policy picks one, and the child is obtained or
created.  Returns the chosen child's index (none when terminal), the
updated node, the next fresh id and the entropy counter. -/
def expand [DecidableEq A] (m : MDP S A)
    (pick : S → List A → (ℕ → ℕ) → ℕ → Option (A × ℕ))
    (σ : ℕ → ℕ) (node : Node S A) (nid k : ℕ) :
    Option (Option ℕ × Node S A × ℕ × ℕ) :=
  if m.is_terminal node.state then some (none, node, nid, k)
  else
    let explored := node.children.filterMap Node.action
    let expandable := (m.get_actions node.state).filter fun a => !(explored.contains a)
    match pick node.state expandable σ k with
    | none => none
    | some (a, k1) =>
      match get_outcome_child m node a nid σ k1 with
      | none => none
      | some (idx, node1, nid1, k2) => some (some idx, node1, nid1, k2)

/-- mcts.rs lines 58-66, MCTS::choose: a single legal action is returned
without a draw; otherwise one uniform index draw (zero legal actions
abort inside genrand). -/
def choose (m : MDP S A) (σ : ℕ → ℕ) (s : S) (k : ℕ) : Option (A × ℕ) :=
  let actions := m.get_actions s
  if actions.length = 1 then (actions.get? 0).map (fun a => (a, k))
  else (genrand 0 actions.length (σ k)).bind fun i =>
    (actions.get? i).map (fun a => (a, k + 1))

/-- mcts.rs lines 69-71, MCTS::heuristic_eval: the default state-value
estimate, constantly 0. -/
def heuristic_eval (_s : S) : ℚ := 0

/-- mcts.rs lines 85-101: the rollout loop of MCTS::simulate.  Each pass
chooses an action, executes it, and adds discount^depth * reward to the
accumulator.  The fuel argument models the wall-clock deadline check at
the head of the loop: fuel 0 means the deadline has elapsed. -/
def rolloutLoop (m : MDP S A) (σ : ℕ → ℕ) :
    ℕ → S → ℚ → ℕ → ℕ → Option (ℚ × S × ℕ)
  | 0, s, cum, _, k => some (cum, s, k)
  | fuel + 1, s, cum, depth, k =>
    if m.is_terminal s then some (cum, s, k)
    else
      match choose m σ s k with
      | none => none
      | some (a, k1) =>
        match m.execute s a σ k1 with
        | none => none
        | some ((s2, rew, _), k2) =>
          rolloutLoop m σ fuel s2
            (cum + m.get_discount_factor ^ depth * rew) (depth + 1) k2

/-- mcts.rs lines 74-122, MCTS::simulate: run the rollout loop from the
node's state, add the heuristic estimate when the loop stopped on the
deadline in a non-terminal state, increment the node's own visit count
(line 111), and return the scalar return with the updated node. -/
def simulate (m : MDP S A) (σ : ℕ → ℕ) (node : Node S A) (fuel k : ℕ) :
    Option (ℚ × Node S A × ℕ) :=
  (rolloutLoop m σ fuel node.state 0 0 k).map fun res =>
    let cum := if m.is_terminal res.2.1 then res.1
               else res.1 + heuristic_eval res.2.1
    (cum, node.withStats (node.visits + 1) node.score node.children, res.2.2)

/-- mcts.rs lines 45-55: one iteration of the search loop — select from
the root; if the selected node is non-terminal, expand it, simulate from
the obtained child and back-propagate the return from the child upward.
State: (root, next fresh id, entropy counter). -/
noncomputable def mctsIter [DecidableEq A] (m : MDP S A) (qt : QTable) (σ : ℕ → ℕ)
    (selFuel rollFuel : ℕ) (st : Node S A × ℕ × ℕ) :
    Option (Node S A × ℕ × ℕ) :=
  match st with
  | (root, nid, k) =>
    match selectPath m qt σ selFuel root nid k with
    | none => none
    | some (path, root1, nid1, k1) =>
      match subtreeAt path root1 with
      | none => none
      | some sel =>
        if m.is_terminal sel.state then some (root1, nid1, k1)
        else
          match expand m RandomRollout.pick σ sel nid1 k1 with
          | none => none
          | some (idxOpt, sel1, nid2, k2) =>
            match idxOpt with
            | none => none
            | some idx =>
              let root2 := replaceAt sel1 path root1
              let childPath := path ++ [idx]
              match subtreeAt childPath root2 with
              | none => none
              | some child =>
                match simulate m σ child rollFuel k2 with
                | none => none
                | some (rew, child1, k3) =>
                  let root3 := replaceAt child1 childPath root2
                  some (back_propagate rew childPath root3, nid2, k3)

/-- mcts.rs lines 42-56, MCTS::mcts: iterate while the elapsed wall-clock
time (elapsed i, in milliseconds, at the head of iteration i) is below
the timeout.  The fuel argument bounds the number of loop passes examined
(the theorems hold for every fuel). -/
noncomputable def mctsLoop [DecidableEq A] (m : MDP S A) (qt : QTable) (σ : ℕ → ℕ)
    (elapsed : ℕ → ℕ) (timeout : ℕ) (selFuel : ℕ) (rollFuel : ℕ → ℕ) :
    ℕ → ℕ → Node S A × ℕ × ℕ → Option (Node S A × ℕ × ℕ)
  | 0, _, st => some st
  | fuel + 1, i, st =>
    if elapsed i < timeout then
      match mctsIter m qt σ selFuel (rollFuel i) st with
      | none => none
      | some st2 =>
        mctsLoop m qt σ elapsed timeout selFuel rollFuel fuel (i + 1) st2
    else some st

/-- mcts.rs lines 29-37, MCTS::new: the root node is created from the
MDP's initial state with id 0, no action, no reward, zero statistics and
no children; the id counter starts at 1 and the bandit at the empty
q-table. -/
def MCTS.new (m : MDP S A) : Node S A :=
  .mk m.get_initial_state 0 none none 0 0 []

/-- The whole search: run the loop from the fresh root and return the
final root. -/
noncomputable def MCTS.mcts [DecidableEq A] (m : MDP S A) (σ : ℕ → ℕ) (elapsed : ℕ → ℕ)
    (timeout : ℕ) (selFuel : ℕ) (rollFuel : ℕ → ℕ) (fuel : ℕ) :
    Option (Node S A) :=
  (mctsLoop m ([] : QTable) σ elapsed timeout selFuel rollFuel fuel 0
    (MCTS.new m, 1, 0)).map (·.1)

/-- Rust f64 partial_cmp on exact (never-NaN) values. -/
def cmpQ (x y : ℚ) : Ordering :=
  if x < y then .lt else if x = y then .eq else .gt

/-- Rust usize cmp. -/
def cmpN (x y : ℕ) : Ordering :=
  if x < y then .lt else if x = y then .eq else .gt

/-- Rust Iterator::max_by: fold keeping the accumulator only when it
compares strictly Greater, so among equally-maximum elements the LAST one
is returned (std documented behaviour). -/
def max_by {α : Type} (cmp : α → α → Ordering) (l : List α) : Option α :=
  l.foldl
    (fun acc y =>
      match acc with
      | none => some y
      | some x => if cmp x y = Ordering.gt then some x else some y)
    none

/-- mcts.rs lines 165-170: walk the softmax distribution, subtracting
each probability from the draw and returning the first index at which
the remainder is no longer positive. -/
noncomputable def softmaxWalk : List ℝ → ℝ → Option ℕ
  | [], _ => none
  | p :: ps, r =>
    if r - p ≤ 0 then some 0 else (softmaxWalk ps (r - p)).map (· + 1)

/-- f64::MIN_POSITIVE = 2^(-1022), the softmax denominator floor. -/
def f64MinPositive : ℚ := 1 / 2 ^ 1022

/-- mcts.rs lines 181-198: the HeuristicWin partition loop.  Children
whose recorded immediate reward is strictly positive go to the winning
list; the rest maintain (bestq, best_mvs) with bestq starting at
f64::NEG_INFINITY (modelled as none: any value beats it and no value is
within 1e-9 of it). -/
def heuristicLoop :
    List (Node S A) → List (Node S A) → Option ℚ → List (Node S A) →
      List (Node S A) × List (Node S A)
  | [], win, _, best => (win, best)
  | c :: cs, win, bestq, best =>
    if (match c.reward with | some r => decide (r > 0) | none => false) then
      heuristicLoop cs (win ++ [c]) bestq best
    else
      let q := c.q_value
      match bestq with
      | none => heuristicLoop cs win (some q) [c]
      | some b =>
        if q > b then heuristicLoop cs win (some q) [c]
        else if |q - b| < 1 / 10 ^ 9 then
          heuristicLoop cs win (some b) (best ++ [c])
        else heuristicLoop cs win (some b) best

/-- mcts.rs lines 163-173: the tail of the Probabilistic branch — after
the uniform draw, walk the softmax distribution and return the indexed
child's action (an out-of-range index aborts), falling back to the first
child's action when the walk exhausts the distribution. -/
noncomputable def probPick (children : List (Node S A)) (c0 : Node S A)
    (probs : List ℝ) (r : ℝ) : Option (Option A) :=
  match softmaxWalk probs r with
  | some i =>
    match children.get? i with
    | none => none
    | some c => some c.action
  | none => some c0.action

/-- mcts.rs lines 128-209, MCTS::best_action: absent when the root has no
children; otherwise the branch for the requested strategy.  The result is
some (the returned optional action); none models an abort (index or
genrand assertion). -/
noncomputable def best_action [DecidableEq A] (root : Node S A)
    (strat : Strategy) (σ : ℕ → ℕ) (k : ℕ) : Option (Option A) :=
  match root.children with
  | [] => some none
  | c0 :: cs =>
    let children := c0 :: cs
    match strat with
    | .MostVisited =>
      some ((max_by (fun a b => cmpN a.visits b.visits) children).bind Node.action)
    | .HighestQValue =>
      some ((max_by (fun a b => cmpQ a.q_value b.q_value) children).bind Node.action)
    | .Probabilistic =>
      -- fold(NEG_INFINITY, f64::max) over the non-empty q-value list is
      -- the list maximum, computed here by folding from the first value
      let maxq : ℝ := (cs.map fun c => (c.q_value : ℝ)).foldl max (c0.q_value : ℝ)
      let expq : List ℝ := children.map fun c => Real.exp ((c.q_value : ℝ) - maxq)
      let sum : ℝ := max expq.sum (f64MinPositive : ℝ)
      let probs : List ℝ := expq.map fun x => x / sum
      match genrand 0 10000 (σ k) with
      | none => none
      | some g => probPick children c0 probs ((g : ℝ) / 10000)
    | .HeuristicWin =>
      match heuristicLoop children [] none [] with
      | (win, best) =>
        if !win.isEmpty then
          (genrand 0 win.length (σ k)).bind fun i =>
            match win.get? i with
            | none => none
            | some c => some c.action
        else
          (genrand 0 best.length (σ k)).bind fun i =>
            match best.get? i with
            | none => none
            | some c => some c.action


/-- Sum of the probabilities of the first n transitions — the cumulative
distribution execute's scan walks through. -/
def cumProb {α : Type} (l : List (α × ℚ)) (n : ℕ) : ℚ :=
  ((l.take n).map (·.2)).sum

/-- The uniform draw execute makes: genrand(0,1000) scaled to [0,1). -/
def executeDraw (σ : ℕ → ℕ) (k : ℕ) : ℚ := ((σ k % 1000 : ℕ) : ℚ) / 1000

/-- Number of children produced by a given action. -/
def countActionChildren [DecidableEq A] (node : Node S A) (a : A) : ℕ :=
  node.children.countP fun c => decide (c.action = some a)

/-! ### Concrete fixtures used by witnesses and counterexamples -/

/-- A two-outcome stochastic MDP over natural-number states. -/
def mC6 : MDP ℕ ℕ where
  get_actions := fun _ => [0]
  get_transitions := fun _ _ => [(5, 1 / 2), (6, 1 / 2)]
  get_reward := fun _ _ s2 => (s2 : ℚ)
  is_terminal := fun _ => true
  get_discount_factor := 1
  get_initial_state := 0

/-- A childless node. -/
def nC7 : Node ℕ ℕ := .mk 0 0 none none 0 0 []

/-- A node that already owns a child produced by action 0. -/
def nC3 : Node ℕ ℕ := .mk 0 0 none none 1 0 [.mk 5 1 (some 0) (some 5) 1 5 []]

/-- A root whose two children tie exactly on mean reward (both 5). -/
def rC5 : Node ℕ ℕ :=
  .mk 0 0 none none 2 10
    [.mk 1 1 (some 0) none 1 5 [], .mk 2 2 (some 1) none 1 5 []]

/-- A fully expanded parent (actions 0 and 1 both have a child) whose
first child has mean reward 4 and whose second has mean reward 0; both
children have one visit, the parent has two. -/
def pC1 : Node ℕ ℕ :=
  .mk 0 0 none none 2 4
    [.mk 1 1 (some 0) none 1 4 [], .mk 2 2 (some 1) none 1 0 []]

/-! ### Basic lemmas -/

namespace Node

variable {S A : Type}

@[simp] theorem state_withStats (n : Node S A) (v q c) :
    (n.withStats v q c).state = n.state := by cases n; rfl

@[simp] theorem id_withStats (n : Node S A) (v q c) :
    (n.withStats v q c).id = n.id := by cases n; rfl

@[simp] theorem action_withStats (n : Node S A) (v q c) :
    (n.withStats v q c).action = n.action := by cases n; rfl

@[simp] theorem reward_withStats (n : Node S A) (v q c) :
    (n.withStats v q c).reward = n.reward := by cases n; rfl

@[simp] theorem visits_withStats (n : Node S A) (v q c) :
    (n.withStats v q c).visits = v := by cases n; rfl

@[simp] theorem score_withStats (n : Node S A) (v q c) :
    (n.withStats v q c).score = q := by cases n; rfl

@[simp] theorem children_withStats (n : Node S A) (v q c) :
    (n.withStats v q c).children = c := by cases n; rfl

@[simp] theorem state_mk (s : S) (i a r v q) (c : List (Node S A)) :
    (Node.mk s i a r v q c).state = s := rfl

@[simp] theorem id_mk (s : S) (i a r v q) (c : List (Node S A)) :
    (Node.mk s i a r v q c).id = i := rfl

@[simp] theorem action_mk (s : S) (i a r v q) (c : List (Node S A)) :
    (Node.mk s i a r v q c).action = a := rfl

@[simp] theorem reward_mk (s : S) (i a r v q) (c : List (Node S A)) :
    (Node.mk s i a r v q c).reward = r := rfl

@[simp] theorem visits_mk (s : S) (i a r v q) (c : List (Node S A)) :
    (Node.mk s i a r v q c).visits = v := rfl

@[simp] theorem score_mk (s : S) (i a r v q) (c : List (Node S A)) :
    (Node.mk s i a r v q c).score = q := rfl

@[simp] theorem children_mk (s : S) (i a r v q) (c : List (Node S A)) :
    (Node.mk s i a r v q c).children = c := rfl

end Node

@[simp] theorem genrand_zero_right (min e : ℕ) : genrand min 0 e = none := by
  simp [genrand]

theorem genrand_pos (n e : ℕ) (h : 0 < n) :
    genrand 0 n e = some (e % n) ∧ e % n < n := by
  simp [genrand, h]
  exact Nat.mod_lt _ h


/-! ### C6: execute scans the cumulative distribution -/

theorem cumProb_zero {α : Type} (l : List (α × ℚ)) : cumProb l 0 = 0 := rfl

theorem cumProb_cons {α : Type} (x : α × ℚ) (l : List (α × ℚ)) (n : ℕ) :
    cumProb (x :: l) (n + 1) = x.2 + cumProb l n := by
  simp [cumProb]

theorem positionCum_some {α : Type} :
    ∀ (l : List (α × ℚ)) (r acc : ℚ) (n : ℕ),
      positionCum l r acc = some n →
      n < l.length ∧ acc + cumProb l (n + 1) ≥ r ∧
        ∀ j < n, acc + cumProb l (j + 1) < r := by
  intro l
  induction l with
  | nil => intro r acc n h; simp [positionCum] at h
  | cons x rest ih =>
    intro r acc n h
    by_cases hc : acc + x.2 ≥ r
    · simp [positionCum, hc] at h
      subst h
      refine ⟨by simp, ?_, by omega⟩
      simpa [cumProb_cons, cumProb_zero] using hc
    · simp [positionCum, hc] at h
      obtain ⟨m, hm, hmn⟩ := h
      obtain ⟨h1, h2, h3⟩ := ih r (acc + x.2) m hm
      subst hmn
      refine ⟨by simpa using h1, ?_, ?_⟩
      · simpa [cumProb_cons, add_assoc] using h2
      · intro j hj
        cases j with
        | zero =>
          simpa [cumProb_cons, cumProb_zero] using lt_of_not_ge hc
        | succ j2 =>
          have := h3 j2 (by omega)
          simpa [cumProb_cons, add_assoc] using this

theorem positionCum_none {α : Type} :
    ∀ (l : List (α × ℚ)) (r acc : ℚ),
      positionCum l r acc = none →
      ∀ j < l.length, acc + cumProb l (j + 1) < r := by
  intro l
  induction l with
  | nil => intro r acc _ j hj; simp at hj
  | cons x rest ih =>
    intro r acc h j hj
    by_cases hc : acc + x.2 ≥ r
    · simp [positionCum, hc] at h
    · simp [positionCum, hc] at h
      cases j with
      | zero =>
        simpa [cumProb_cons, cumProb_zero] using lt_of_not_ge hc
      | succ j2 =>
        have := ih r (acc + x.2) h j2 (by simpa using hj)
        simpa [cumProb_cons, add_assoc] using this

/-- C6: on every state and action with a non-empty transition list,
execute draws one uniform sample, scans the transitions in order
accumulating their probabilities, and returns the first outcome whose
cumulative probability meets or exceeds the draw (falling back to the
first outcome when no cumulative probability reaches the draw); the
returned reward and terminal flag are those of the chosen outcome
state, and exactly one entropy draw is consumed. -/
theorem C6_execute_cumulative_scan (m : MDP S A) (s : S) (a : A)
    (σ : ℕ → ℕ) (k : ℕ) (h : m.get_transitions s a ≠ []) :
    ∃ idx sp,
      (m.get_transitions s a).get? idx = some sp ∧
      m.execute s a σ k =
        some ((sp.1, m.get_reward s a sp.1, m.is_terminal sp.1), k + 1) ∧
      ((cumProb (m.get_transitions s a) (idx + 1) ≥ executeDraw σ k ∧
          ∀ j < idx,
            cumProb (m.get_transitions s a) (j + 1) < executeDraw σ k) ∨
        (idx = 0 ∧ ∀ j < (m.get_transitions s a).length,
          cumProb (m.get_transitions s a) (j + 1) < executeDraw σ k)) := by
  obtain ⟨t0, ts, hts⟩ : ∃ t0 ts, m.get_transitions s a = t0 :: ts := by
    cases hx : m.get_transitions s a with
    | nil => exact absurd hx h
    | cons t0 ts => exact ⟨t0, ts, rfl⟩
  have hg : genrand 0 1000 (σ k) = some (σ k % 1000) :=
    (genrand_pos 1000 (σ k) (by norm_num)).1
  have hr : ((σ k % 1000 : ℕ) : ℚ) / 1000 = executeDraw σ k := rfl
  cases hpos : positionCum (t0 :: ts) (((σ k % 1000 : ℕ) : ℚ) / 1000) 0 with
  | some n =>
    obtain ⟨hlen, hge, hlt⟩ := positionCum_some _ _ _ _ hpos
    obtain ⟨sp, hsp⟩ : ∃ sp, (t0 :: ts).get? n = some sp :=
      ⟨_, List.get?_eq_get hlen⟩
    refine ⟨n, sp, by rw [hts]; exact hsp, ?_, ?_⟩
    · show m.execute s a σ k = _
      unfold MDP.execute
      rw [hts, hg]
      simp only [hpos, Option.getD_some, hsp]
    · left
      rw [hts]
      constructor
      · simpa [executeDraw] using hge
      · intro j hj
        simpa [executeDraw] using hlt j hj
  | none =>
    refine ⟨0, t0, by rw [hts]; rfl, ?_, ?_⟩
    · show m.execute s a σ k = _
      unfold MDP.execute
      rw [hts, hg]
      simp only [hpos, Option.getD_none, List.get?]
      rfl
    · right
      rw [hts]
      exact ⟨rfl, fun j hj => by
        simpa [executeDraw] using positionCum_none _ _ _ hpos j hj⟩

/-- Witness for C6 at a concrete two-outcome MDP. -/
theorem C6_execute_cumulative_scan_witness :
    mC6.get_transitions 0 0 ≠ [] ∧
    (∃ idx sp,
      (mC6.get_transitions 0 0).get? idx = some sp ∧
      mC6.execute 0 0 (fun _ => 700) 0 =
        some ((sp.1, mC6.get_reward 0 0 sp.1, mC6.is_terminal sp.1), 0 + 1) ∧
      ((cumProb (mC6.get_transitions 0 0) (idx + 1) ≥
            executeDraw (fun _ => 700) 0 ∧
          ∀ j < idx, cumProb (mC6.get_transitions 0 0) (j + 1) <
            executeDraw (fun _ => 700) 0) ∨
        (idx = 0 ∧ ∀ j < (mC6.get_transitions 0 0).length,
          cumProb (mC6.get_transitions 0 0) (j + 1) <
            executeDraw (fun _ => 700) 0))) :=
  ⟨by decide, C6_execute_cumulative_scan mC6 0 0 (fun _ => 700) 0 (by decide)⟩


/-! ### C7: empty candidate lists abort -/

/-- C7: calling the rollout policy's pick with an empty candidate list,
or the bandit's select on a childless node with an empty candidate list,
aborts (the genrand(0, 0) assertion fails) instead of returning a value. -/
theorem C7_empty_candidates_abort [DecidableEq A] (s : S) (σ : ℕ → ℕ)
    (k : ℕ) (qt : QTable) (node : Node S A) (h : node.children = []) :
    RandomRollout.pick s ([] : List A) σ k = none ∧
    UCB1.select qt node ([] : List A) σ k = none := by
  constructor
  · simp [RandomRollout.pick, genrand]
  · unfold UCB1.select
    rw [h]
    simp [scoreLoop, genrand, List.find?]

/-- Witness for C7 at a concrete childless node over natural numbers. -/
theorem C7_empty_candidates_abort_witness :
    nC7.children = [] ∧
    (RandomRollout.pick (0 : ℕ) ([] : List ℕ) (fun _ => 0) 0 = none ∧
      UCB1.select ([] : QTable) nC7 ([] : List ℕ) (fun _ => 0) 0 = none) :=
  ⟨rfl, C7_empty_candidates_abort 0 (fun _ => 0) 0 [] nC7 rfl⟩


/-! ### C2: simulate and tree statistics -/

/-- C2 counterexample: on a concrete MDP that is terminal everywhere,
simulate on a node with 0 visits returns a node whose visit count is 1 —
mcts.rs line 111 mutates the node's visit count, so simulate does NOT
leave every tree statistic unchanged. -/
theorem C2_counterexample :
    (simulate mC6 (fun _ => 0) nC7 3 0).map (fun res => res.2.1.visits) =
      some 1 ∧
    nC7.visits = 0 := by
  constructor
  · rfl
  · rfl

/-- C2 amended: simulate returns a scalar return and leaves the node's
score, children and identity fields unchanged, but increments the node's
own visit count by exactly one (mcts.rs line 111); the rollout loop
itself only threads the local state and accumulator and touches no node. -/
theorem C2_simulate_frame (m : MDP S A) (σ : ℕ → ℕ) (node : Node S A)
    (fuel k : ℕ) (r : ℚ) (n2 : Node S A) (k2 : ℕ)
    (h : simulate m σ node fuel k = some (r, n2, k2)) :
    n2.visits = node.visits + 1 ∧ n2.score = node.score ∧
    n2.children = node.children ∧ n2.state = node.state ∧
    n2.action = node.action ∧ n2.reward = node.reward ∧ n2.id = node.id := by
  unfold simulate at h
  cases hx : rolloutLoop m σ fuel node.state 0 0 k with
  | none => rw [hx] at h; simp at h
  | some res =>
    rw [hx] at h
    simp only [Option.map_some', Option.some.injEq, Prod.mk.injEq] at h
    obtain ⟨-, h2, -⟩ := h
    rw [← h2]
    simp

/-- Witness for the amended C2 at a concrete node. -/
theorem C2_simulate_frame_witness :
    simulate mC6 (fun _ => 0) nC7 3 0 =
      some (0, Node.mk 0 0 none none 1 0 [], 0) ∧
    ((Node.mk 0 0 none none 1 0 [] : Node ℕ ℕ).visits = nC7.visits + 1 ∧
      (Node.mk 0 0 none none 1 0 [] : Node ℕ ℕ).score = nC7.score ∧
      (Node.mk 0 0 none none 1 0 [] : Node ℕ ℕ).children = nC7.children ∧
      (Node.mk 0 0 none none 1 0 [] : Node ℕ ℕ).state = nC7.state ∧
      (Node.mk 0 0 none none 1 0 [] : Node ℕ ℕ).action = nC7.action ∧
      (Node.mk 0 0 none none 1 0 [] : Node ℕ ℕ).reward = nC7.reward ∧
      (Node.mk 0 0 none none 1 0 [] : Node ℕ ℕ).id = nC7.id) :=
  ⟨rfl, C2_simulate_frame mC6 (fun _ => 0) nC7 3 0 0 _ 0 rfl⟩


/-! ### C3: get_or_create_child -/

theorem execute_isSome (m : MDP S A) (s : S) (a : A) (σ : ℕ → ℕ) (k : ℕ)
    (h : m.get_transitions s a ≠ []) :
    ∃ s2 rew dn, m.execute s a σ k = some ((s2, rew, dn), k + 1) := by
  obtain ⟨t0, ts, hts⟩ := List.exists_cons_of_ne_nil h
  unfold MDP.execute
  rw [hts]
  have hg : genrand 0 1000 (σ k) = some (σ k % 1000) :=
    (genrand_pos 1000 (σ k) (by norm_num)).1
  rw [hg]
  exact ⟨_, _, _, rfl⟩

theorem firstChildWith_none [DecidableEq A] (a : A) :
    ∀ l : List (Node S A),
      firstChildWith a l = none ↔ ∀ c ∈ l, c.action ≠ some a := by
  intro l
  induction l with
  | nil => simp [firstChildWith]
  | cons c cs ih =>
    by_cases hc : c.action = some a
    · simp [firstChildWith, hc]
    · simp [firstChildWith, hc, Option.map_eq_none', ih]

theorem firstChildWith_some [DecidableEq A] (a : A) :
    ∀ (l : List (Node S A)) (i : ℕ), firstChildWith a l = some i →
      ∃ c, l.get? i = some c ∧ c.action = some a := by
  intro l
  induction l with
  | nil => intro i h; simp [firstChildWith] at h
  | cons c cs ih =>
    intro i h
    by_cases hc : c.action = some a
    · simp [firstChildWith, hc] at h
      subst h
      exact ⟨c, rfl, hc⟩
    · simp [firstChildWith, hc] at h
      obtain ⟨j, hj, hji⟩ := h
      obtain ⟨c2, hc2, hc2a⟩ := ih j hj
      exact ⟨c2, by rw [← hji]; simpa using hc2, hc2a⟩

theorem firstChildWith_append_right [DecidableEq A] (a : A) (c : Node S A)
    (hc : c.action = some a) :
    ∀ l : List (Node S A), firstChildWith a l = none →
      firstChildWith a (l ++ [c]) = some l.length := by
  intro l
  induction l with
  | nil => intro _; simp [firstChildWith, hc]
  | cons x xs ih =>
    intro h
    by_cases hx : x.action = some a
    · simp [firstChildWith, hx] at h
    · simp only [firstChildWith, hx, if_false, Option.map_eq_none'] at h
      simp [firstChildWith, hx, ih h]

theorem get_outcome_child_eq [DecidableEq A] (m : MDP S A) (node : Node S A)
    (a : A) (nid : ℕ) (σ : ℕ → ℕ) (k : ℕ) (s2 : S) (rew : ℚ) (dn : Bool)
    (hex : m.execute node.state a σ k = some ((s2, rew, dn), k + 1)) :
    get_outcome_child m node a nid σ k =
      match firstChildWith a node.children with
      | some idx => some (idx, node, nid, k + 1)
      | none =>
        some (node.children.length,
          node.withStats node.visits node.score
            (node.children ++ [Node.mk s2 nid (some a) (some rew) 0 rew []]),
          nid + 1, k + 1) := by
  unfold get_outcome_child
  rw [hex]

/-- C3 counterexample: on a node that already owns a child for action 0,
get_outcome_child returns that child (index 0) and leaves the node,
but the entropy counter advances from 0 to 1 — mdp.rs execute IS invoked
(one random sample is drawn and discarded) even when the child already
exists, contradicting the claim that execute is not invoked. -/
theorem C3_counterexample :
    get_outcome_child mC6 nC3 0 9 (fun _ => 0) 0 = some (0, nC3, 9, 1) ∧
    (1 : ℕ) ≠ (0 : ℕ) :=
  ⟨rfl, by decide⟩

/-- C3 amended: get_or_create_child is idempotent at the tree level —
when a child for the action exists it is returned unchanged, no duplicate
is ever added (the count of children for the action becomes
max(previous count, 1)), and a second call with the same action returns
the same child at the same index with the node unchanged — but every
call, including one that finds an existing child, invokes mdp.execute and
consumes one random draw (the entropy counter always advances by one). -/
theorem C3_get_or_create_child [DecidableEq A] (m : MDP S A)
    (node : Node S A) (a : A) (nid : ℕ) (σ : ℕ → ℕ) (k : ℕ)
    (h : m.get_transitions node.state a ≠ []) :
    ∃ idx c node2 nid2,
      get_outcome_child m node a nid σ k = some (idx, node2, nid2, k + 1) ∧
      node2.children.get? idx = some c ∧ c.action = some a ∧
      node2.state = node.state ∧
      countActionChildren node2 a = max (countActionChildren node a) 1 ∧
      (firstChildWith a node.children = some idx → node2 = node) ∧
      ∀ (nid3 : ℕ) (σ2 : ℕ → ℕ) (k2 : ℕ),
        get_outcome_child m node2 a nid3 σ2 k2 =
          some (idx, node2, nid3, k2 + 1) := by
  obtain ⟨s2, rew, dn, hex⟩ := execute_isSome m node.state a σ k h
  cases hfc : firstChildWith a node.children with
  | some idx =>
    obtain ⟨c, hgc, hca⟩ := firstChildWith_some a node.children idx hfc
    have hpos : 0 < countActionChildren node a :=
      List.countP_pos_iff.mpr ⟨c, List.get?_mem hgc, by simp [hca]⟩
    refine ⟨idx, c, node, nid, ?_, hgc, hca, rfl, (Nat.max_eq_left hpos).symm,
      fun _ => rfl, ?_⟩
    · rw [get_outcome_child_eq m node a nid σ k s2 rew dn hex, hfc]
    · intro nid3 σ2 k2
      obtain ⟨s3, rew3, dn3, hex2⟩ := execute_isSome m node.state a σ2 k2 h
      rw [get_outcome_child_eq m node a nid3 σ2 k2 s3 rew3 dn3 hex2, hfc]
  | none =>
    have hall : ∀ c ∈ node.children, c.action ≠ some a :=
      (firstChildWith_none a node.children).mp hfc
    have hzero : countActionChildren node a = 0 :=
      List.countP_eq_zero.mpr fun c hc => by simp [hall c hc]
    refine ⟨node.children.length, Node.mk s2 nid (some a) (some rew) 0 rew [],
      node.withStats node.visits node.score
        (node.children ++ [Node.mk s2 nid (some a) (some rew) 0 rew []]),
      nid + 1, ?_, ?_, rfl, by simp, ?_, ?_, ?_⟩
    · rw [get_outcome_child_eq m node a nid σ k s2 rew dn hex, hfc]
    · simp
    · have hone : countActionChildren
          (node.withStats node.visits node.score
            (node.children ++ [Node.mk s2 nid (some a) (some rew) 0 rew []])) a
          = 1 := by
        rw [countActionChildren]
        rw [Node.children_withStats, List.countP_append]
        rw [List.countP_eq_zero.mpr fun c hc => by simp [hall c hc]]
        simp [List.countP_cons]
      rw [hone, hzero]
      rfl
    · intro h2
      simp [hfc] at h2
    · intro nid3 σ2 k2
      obtain ⟨s3, rew3, dn3, hex2⟩ := execute_isSome m node.state a σ2 k2 h
      have hex3 : m.execute
          (node.withStats node.visits node.score
            (node.children ++ [Node.mk s2 nid (some a) (some rew) 0 rew []])).state
          a σ2 k2 = some ((s3, rew3, dn3), k2 + 1) := by
        rw [Node.state_withStats]
        exact hex2
      rw [get_outcome_child_eq m _ a nid3 σ2 k2 s3 rew3 dn3 hex3]
      have hfc2 : firstChildWith a
          (node.withStats node.visits node.score
            (node.children ++ [Node.mk s2 nid (some a) (some rew) 0 rew []])).children
          = some node.children.length := by
        rw [Node.children_withStats]
        exact firstChildWith_append_right a
          (Node.mk s2 nid (some a) (some rew) 0 rew []) (by simp)
          node.children hfc
      rw [hfc2]

/-- Witness for the amended C3 at the concrete node nC3. -/
theorem C3_get_or_create_child_witness :
    mC6.get_transitions nC3.state 0 ≠ [] ∧
    (∃ idx c node2 nid2,
      get_outcome_child mC6 nC3 0 9 (fun _ => 0) 0 =
        some (idx, node2, nid2, 0 + 1) ∧
      node2.children.get? idx = some c ∧ c.action = some 0 ∧
      node2.state = nC3.state ∧
      countActionChildren node2 0 = max (countActionChildren nC3 0) 1 ∧
      (firstChildWith 0 nC3.children = some idx → node2 = nC3) ∧
      ∀ (nid3 : ℕ) (σ2 : ℕ → ℕ) (k2 : ℕ),
        get_outcome_child mC6 node2 0 nid3 σ2 k2 =
          some (idx, node2, nid3, k2 + 1)) :=
  ⟨by decide, C3_get_or_create_child mC6 nC3 0 9 (fun _ => 0) 0 (by decide)⟩


/-! ### C4: back_propagate touches exactly the ancestors -/

/-- C4: back_propagate at the node reached by path p adds exactly 1 visit
and exactly r score to that node and to every ancestor up to the root
(the nodes at the initial segments of p), keeps all their other fields
and their child counts, and leaves the entire subtree at every
non-ancestor path unchanged. -/
theorem C4_back_propagate_frame (r : ℚ) :
    ∀ (p : List ℕ) (t N : Node S A), subtreeAt p t = some N →
      (∀ q : List ℕ, p.take q.length ≠ q →
        subtreeAt q (back_propagate r p t) = subtreeAt q t) ∧
      (∀ (q : List ℕ) (M : Node S A), p.take q.length = q →
        subtreeAt q t = some M →
        ∃ M2, subtreeAt q (back_propagate r p t) = some M2 ∧
          M2.visits = M.visits + 1 ∧ M2.score = M.score + r ∧
          M2.state = M.state ∧ M2.action = M.action ∧
          M2.reward = M.reward ∧ M2.id = M.id ∧
          M2.children.length = M.children.length) := by
  intro p
  induction p with
  | nil =>
    intro t N hN
    constructor
    · intro q hq
      cases q with
      | nil => exact absurd (List.take_nil) hq
      | cons j q2 => simp [back_propagate, subtreeAt]
    · intro q M hq hM
      have hq2 : q = [] := by simpa using hq.symm
      subst hq2
      have hM2 : t = M := by simpa [subtreeAt] using hM
      subst hM2
      exact ⟨_, rfl, by simp [back_propagate]⟩
  | cons i p2 ih =>
    intro t N hN
    obtain ⟨c, hc, hN2⟩ : ∃ c, t.children.get? i = some c ∧
        subtreeAt p2 c = some N := by
      cases hg : t.children.get? i with
      | none =>
        simp only [subtreeAt, hg, Option.none_bind] at hN
        exact absurd hN (by simp)
      | some c =>
        simp only [subtreeAt, hg, Option.some_bind] at hN
        exact ⟨c, rfl, hN⟩
    have hcg : t.children[i]? = some c := by
      rw [← List.get?_eq_getElem?]
      exact hc
    have hbp : back_propagate r (i :: p2) t =
        t.withStats (t.visits + 1) (t.score + r)
          (t.children.set i (back_propagate r p2 c)) := by
      simp [back_propagate, hcg]
    obtain ⟨hi, -⟩ := List.get?_eq_some.mp hc
    obtain ⟨ih1, ih2⟩ := ih c N hN2
    constructor
    · intro q hq
      cases q with
      | nil => exact absurd rfl hq
      | cons j q2 =>
        rw [hbp]
        by_cases hj : j = i
        · subst hj
          have hget : (t.children.set j (back_propagate r p2 c)).get? j =
              some (back_propagate r p2 c) :=
            List.get?_set_eq_of_lt _ hi
          simp only [subtreeAt, Node.children_withStats, hget, hc,
            Option.some_bind]
          refine ih1 q2 fun hcontra => hq ?_
          rw [List.length_cons, List.take_succ_cons, hcontra]
        · have hget : (t.children.set i (back_propagate r p2 c)).get? j =
              t.children.get? j :=
            List.get?_set_ne _ _ fun he => hj he.symm
          simp only [subtreeAt, Node.children_withStats, hget]
    · intro q M hq hM
      cases q with
      | nil =>
        have hM2 : t = M := by simpa [subtreeAt] using hM
        subst hM2
        exact ⟨_, rfl, by simp [hbp]⟩
      | cons j q2 =>
        rw [List.length_cons, List.take_succ_cons] at hq
        have hj : i = j := (List.cons.injEq _ _ _ _ ▸ hq).1
        subst hj
        have hq2 : p2.take q2.length = q2 := by
          have := hq
          injection this
        simp only [subtreeAt, hc, Option.some_bind] at hM
        obtain ⟨M2, hM2, hstats⟩ := ih2 q2 M hq2 hM
        refine ⟨M2, ?_, hstats⟩
        rw [hbp]
        simp only [subtreeAt, Node.children_withStats,
          List.get?_set_eq_of_lt _ hi, Option.some_bind]
        exact hM2

/-- Witness for C4 on the concrete two-node tree nC3 with path [0]. -/
theorem C4_back_propagate_frame_witness :
    subtreeAt [0] nC3 = some (Node.mk 5 1 (some 0) (some 5) 1 5 []) ∧
    ((∀ q : List ℕ, [0].take q.length ≠ q →
        subtreeAt q (back_propagate 7 [0] nC3) = subtreeAt q nC3) ∧
      (∀ (q : List ℕ) (M : Node ℕ ℕ), [0].take q.length = q →
        subtreeAt q nC3 = some M →
        ∃ M2, subtreeAt q (back_propagate 7 [0] nC3) = some M2 ∧
          M2.visits = M.visits + 1 ∧ M2.score = M.score + 7 ∧
          M2.state = M.state ∧ M2.action = M.action ∧
          M2.reward = M.reward ∧ M2.id = M.id ∧
          M2.children.length = M.children.length)) :=
  ⟨rfl, C4_back_propagate_frame 7 [0] nC3 _ rfl⟩


/-! ### C8: a zero-length deadline runs no iteration -/

/-- C8: with timeout 0 the search loop performs no iteration whatever the
clock readings and fuel bounds are, so the returned root is exactly the
fresh root, which has zero children, and best_action on it returns absent
(Rust None, modelled some none) for every strategy. -/
theorem C8_zero_timeout [DecidableEq A] (m : MDP S A) (σ elapsed : ℕ → ℕ)
    (selFuel : ℕ) (rollFuel : ℕ → ℕ) (fuel : ℕ) :
    MCTS.mcts m σ elapsed 0 selFuel rollFuel fuel = some (MCTS.new m) ∧
    (MCTS.new m).children = [] ∧
    ∀ (strat : Strategy) (σ2 : ℕ → ℕ) (k2 : ℕ),
      best_action (MCTS.new m) strat σ2 k2 = some none := by
  refine ⟨?_, by simp [MCTS.new], ?_⟩
  · unfold MCTS.mcts
    cases fuel with
    | zero => rfl
    | succ f => simp [mctsLoop]
  · intro strat σ2 k2
    have h : (MCTS.new m).children = [] := by simp [MCTS.new]
    unfold best_action
    rw [h]


/-! ### C9: a zero-visit child short-circuits the bandit -/

theorem scoreLoop_zero_visit [DecidableEq A] (qt : QTable) (total : ℕ)
    (c : Node S A) (post : List (Node S A)) (a : A)
    (hc0 : c.visits = 0) (hca : c.action = some a) :
    ∀ pre : List (Node S A), (∀ x ∈ pre, x.visits ≠ 0 ∧ x.action.isSome) →
      ∀ (bestV : Option ℝ) (best : List A),
        scoreLoop qt total (pre ++ c :: post) bestV best =
          some (Sum.inl a) := by
  intro pre
  induction pre with
  | nil =>
    intro _ bestV best
    simp [scoreLoop, hc0, hca]
  | cons x pre2 ih =>
    intro hx bestV best
    obtain ⟨hxv, hxa⟩ := hx x (by simp)
    obtain ⟨ax, hax⟩ := Option.isSome_iff_exists.mp hxa
    have ihall : ∀ y ∈ pre2, y.visits ≠ 0 ∧ y.action.isSome :=
      fun y hy => hx y (by simp [hy])
    show scoreLoop qt total (x :: (pre2 ++ c :: post)) bestV best = _
    cases bestV with
    | none =>
      simp only [scoreLoop, hxv, if_false, hax]
      exact ih ihall _ _
    | some bv =>
      by_cases hgt : ucbValue qt total x > bv
      · simp only [scoreLoop, hxv, if_false, hax, hgt, if_true]
        exact ih ihall _ _
      · by_cases heps : |ucbValue qt total x - bv| < (f64Epsilon : ℝ)
        · simp only [scoreLoop, hxv, if_false, hax, hgt, heps, if_true]
          exact ih ihall _ _
        · simp only [scoreLoop, hxv, if_false, hax, hgt, heps]
          exact ih ihall _ _

/-- C9: when every candidate action already has a child and some child
has zero visits, UCB1::select returns the action of the first zero-visit
child in creation order, immediately and deterministically: no entropy is
consumed (the counter k is returned unchanged), for every entropy stream
and every q-table. -/
theorem C9_zero_visit_bypass [DecidableEq A] (qt : QTable)
    (node : Node S A) (actions : List A) (σ : ℕ → ℕ) (k : ℕ)
    (pre post : List (Node S A)) (c : Node S A) (a : A)
    (hchild : node.children = pre ++ c :: post)
    (huntried : ∀ x ∈ actions, ∃ ch ∈ node.children, ch.action = some x)
    (hpre : ∀ x ∈ pre, x.visits ≠ 0 ∧ x.action.isSome)
    (hc0 : c.visits = 0) (hca : c.action = some a) :
    UCB1.select qt node actions σ k = some (a, k) := by
  have hfind : actions.find?
      (fun x => ! node.children.any fun ch => decide (ch.action = some x)) =
      none := by
    rw [List.find?_eq_none]
    intro x hx
    have hany : node.children.any (fun ch => decide (ch.action = some x)) =
        true := by
      obtain ⟨ch, hch, hcha⟩ := huntried x hx
      exact List.any_eq_true.mpr ⟨ch, hch, by simp [hcha]⟩
    simp [hany]
  unfold UCB1.select
  rw [hfind, hchild]
  simp only [scoreLoop_zero_visit qt _ c post a hc0 hca pre hpre]

/-- Witness for C9: a node with a visited first child and a zero-visit
second child; select returns the second child's action without a draw. -/
theorem C9_zero_visit_bypass_witness :
    ((Node.mk 0 0 none none 2 0
        [Node.mk 1 1 (some 0) (some 1) 1 1 [],
          Node.mk 2 2 (some 1) (some 0) 0 0 []] : Node ℕ ℕ)).children =
      [Node.mk 1 1 (some 0) (some 1) 1 1 []] ++
        Node.mk 2 2 (some 1) (some 0) 0 0 [] :: [] ∧
    (∀ x ∈ [0, 1], ∃ ch ∈ (Node.mk 0 0 none none 2 0
        [Node.mk 1 1 (some 0) (some 1) 1 1 [],
          Node.mk 2 2 (some 1) (some 0) 0 0 []] : Node ℕ ℕ).children,
        ch.action = some x) ∧
    UCB1.select ([] : QTable)
      (Node.mk 0 0 none none 2 0
        [Node.mk 1 1 (some 0) (some 1) 1 1 [],
          Node.mk 2 2 (some 1) (some 0) 0 0 []]) [0, 1] (fun _ => 9) 4 =
      some (1, 4) :=
  ⟨rfl, by decide,
    C9_zero_visit_bypass ([] : QTable) _ [0, 1] (fun _ => 9) 4
      [Node.mk 1 1 (some 0) (some 1) 1 1 []] []
      (Node.mk 2 2 (some 1) (some 0) 0 0 []) 1 rfl (by decide) (by decide)
      rfl rfl⟩


/-! ### C5: HighestQValue ties resolve to the LAST maximal child -/

theorem cmpQ_eq_gt (x y : ℚ) : cmpQ x y = Ordering.gt ↔ y < x := by
  unfold cmpQ
  split_ifs with h1 h2
  · exact iff_of_false (by simp) (asymm h1)
  · exact iff_of_false (by simp) (by simp [h2])
  · exact iff_of_true rfl (lt_of_le_of_ne (not_lt.mp h1) fun he => h2 he.symm)

theorem max_by_go {α : Type} (key : α → ℚ) :
    ∀ (l : List α) (acc : α),
      ∃ m,
        l.foldl
          (fun acc y =>
            match acc with
            | none => some y
            | some x =>
              if cmpQ (key x) (key y) = Ordering.gt then some x else some y)
          (some acc) = some m ∧
        key acc ≤ key m ∧ (∀ y ∈ l, key y ≤ key m) ∧
        ((m = acc ∧ ∀ y ∈ l, key y < key acc) ∨
          ∃ l1 l2, l = l1 ++ m :: l2 ∧ ∀ y ∈ l2, key y < key m) := by
  intro l
  induction l with
  | nil =>
    intro acc
    exact ⟨acc, rfl, le_refl _, by simp, Or.inl ⟨rfl, by simp⟩⟩
  | cons y ys ih =>
    intro acc
    by_cases hgt : cmpQ (key acc) (key y) = Ordering.gt
    · have hyacc : key y < key acc := (cmpQ_eq_gt _ _).mp hgt
      obtain ⟨m, hfold, hle, hall, hdisj⟩ := ih acc
      refine ⟨m, ?_, hle, ?_, ?_⟩
      · simpa [hgt] using hfold
      · intro z hz
        rcases List.mem_cons.mp hz with hz | hz
        · exact hz ▸ le_trans hyacc.le hle
        · exact hall z hz
      · rcases hdisj with ⟨hm, hstrict⟩ | ⟨l1, l2, hsplit, hstrict⟩
        · refine Or.inl ⟨hm, ?_⟩
          intro z hz
          rcases List.mem_cons.mp hz with hz | hz
          · exact hz ▸ hyacc
          · exact hstrict z hz
        · exact Or.inr ⟨y :: l1, l2, by rw [hsplit]; rfl, hstrict⟩
    · have haccy : key acc ≤ key y := by
        by_contra hcon
        exact hgt ((cmpQ_eq_gt _ _).mpr (not_le.mp hcon))
      obtain ⟨m, hfold, hle, hall, hdisj⟩ := ih y
      refine ⟨m, ?_, le_trans haccy hle, ?_, ?_⟩
      · simpa [hgt] using hfold
      · intro z hz
        rcases List.mem_cons.mp hz with hz | hz
        · exact hz ▸ hle
        · exact hall z hz
      · rcases hdisj with ⟨hm, hstrict⟩ | ⟨l1, l2, hsplit, hstrict⟩
        · exact Or.inr ⟨[], ys, by rw [hm]; rfl, by rw [← hm] at hstrict; exact hstrict⟩
        · exact Or.inr ⟨y :: l1, l2, by rw [hsplit]; rfl, hstrict⟩

theorem max_by_last_max {α : Type} (key : α → ℚ) (x : α) (l : List α) :
    ∃ l1 m l2, x :: l = l1 ++ m :: l2 ∧
      max_by (fun a b => cmpQ (key a) (key b)) (x :: l) = some m ∧
      (∀ y ∈ x :: l, key y ≤ key m) ∧ ∀ y ∈ l2, key y < key m := by
  obtain ⟨m, hfold, hle, hall, hdisj⟩ := max_by_go key l x
  have hmb : max_by (fun a b => cmpQ (key a) (key b)) (x :: l) = some m := by
    unfold max_by
    simpa using hfold
  rcases hdisj with ⟨hm, hstrict⟩ | ⟨l1, l2, hsplit, hstrict⟩
  · exact ⟨[], m, l, by rw [hm]; rfl, hmb,
      fun y hy => (List.mem_cons.mp hy).elim (fun h => h ▸ hle) (hall y ∘ id),
      by rw [← hm] at hstrict; exact hstrict⟩
  · refine ⟨x :: l1, m, l2, by rw [hsplit]; rfl, hmb, ?_, hstrict⟩
    intro y hy
    rcases List.mem_cons.mp hy with hy | hy
    · exact hy ▸ hle
    · exact hall y hy

/-- C5 counterexample: on a root whose two children have equal mean
reward 5 but different actions, HighestQValue returns the SECOND child's
action (some 1), not the first-encountered one (some 0): Rust
Iterator::max_by keeps the last of equally-maximum elements. -/
theorem C5_counterexample :
    best_action rC5 Strategy.HighestQValue (fun _ => 0) 0 = some (some 1) ∧
    rC5.children.map Node.q_value = [5, 5] ∧
    rC5.children.map Node.action = [some 0, some 1] := by
  refine ⟨?_, by norm_num [rC5, Node.q_value], by decide⟩
  show best_action rC5 Strategy.HighestQValue (fun _ => 0) 0 = some (some 1)
  unfold best_action rC5
  norm_num [max_by, cmpQ, Node.q_value]
  simp

/-- C5 amended: for a non-empty set of root children, HighestQValue
returns the action of a child with the maximum mean reward, and among
children tying for the maximum it returns the LAST-encountered
(latest-created) one: the returned child is maximal and no child after it
attains its mean reward. -/
theorem C5_highest_q_last_tie [DecidableEq A] (root : Node S A)
    (σ : ℕ → ℕ) (k : ℕ) (h : root.children ≠ []) :
    ∃ l1 m l2, root.children = l1 ++ m :: l2 ∧
      best_action root Strategy.HighestQValue σ k = some m.action ∧
      (∀ y ∈ root.children, y.q_value ≤ m.q_value) ∧
      ∀ y ∈ l2, y.q_value < m.q_value := by
  obtain ⟨c0, cs, hc⟩ := List.exists_cons_of_ne_nil h
  obtain ⟨l1, m, l2, hsplit, hmb, hall, hstrict⟩ :=
    max_by_last_max Node.q_value c0 cs
  refine ⟨l1, m, l2, by rw [hc, hsplit], ?_, by rw [hc]; exact hall, hstrict⟩
  unfold best_action
  rw [hc]
  simp [hmb]

/-- Witness for the amended C5 at the concrete tied root rC5. -/
theorem C5_highest_q_last_tie_witness :
    rC5.children ≠ [] ∧
    (∃ l1 m l2, rC5.children = l1 ++ m :: l2 ∧
      best_action rC5 Strategy.HighestQValue (fun _ => 0) 0 = some m.action ∧
      (∀ y ∈ rC5.children, y.q_value ≤ m.q_value) ∧
      ∀ y ∈ l2, y.q_value < m.q_value) :=
  ⟨by simp [rC5], C5_highest_q_last_tie rC5 (fun _ => 0) 0 (by simp [rC5])⟩


/-! ### C1: what the bandit actually scores -/

theorem f64Epsilon_nonneg : (0 : ℝ) ≤ (f64Epsilon : ℝ) := by
  norm_num [f64Epsilon]

theorem scoreLoop_inr_spec [DecidableEq A] (qt : QTable) (total : ℕ) :
    ∀ (cs : List (Node S A)) (b : ℝ) (best : List A),
      (∀ c ∈ cs, c.visits ≠ 0 ∧ c.action.isSome) →
      ∃ res bFin,
        scoreLoop qt total cs (some b) best = some (Sum.inr res) ∧
        b ≤ bFin ∧
        (∀ c ∈ cs, ucbValue qt total c ≤ bFin) ∧
        (∀ a ∈ res, (a ∈ best ∧ bFin = b) ∨
          ∃ c ∈ cs, c.action = some a ∧
            bFin ≤ ucbValue qt total c + (f64Epsilon : ℝ)) ∧
        (res = [] → best = []) := by
  intro cs
  induction cs with
  | nil =>
    intro b best _
    exact ⟨best, b, rfl, le_refl _, by simp,
      fun a ha => Or.inl ⟨ha, rfl⟩, fun h => h⟩
  | cons c cs2 ih =>
    intro b best hall
    obtain ⟨hcv, hca⟩ := hall c (by simp)
    obtain ⟨ac, hac⟩ := Option.isSome_iff_exists.mp hca
    have hall2 : ∀ x ∈ cs2, x.visits ≠ 0 ∧ x.action.isSome :=
      fun x hx => hall x (by simp [hx])
    by_cases hgt : ucbValue qt total c > b
    · obtain ⟨res, bFin, hsl, hble, hbound, hmem, hemp⟩ :=
        ih (ucbValue qt total c) [ac] hall2
      refine ⟨res, bFin, ?_, le_trans hgt.le hble, ?_, ?_, ?_⟩
      · show scoreLoop qt total (c :: cs2) (some b) best = _
        simp only [scoreLoop, hcv, if_false, hac, hgt, if_true]
        exact hsl
      · intro x hx
        rcases List.mem_cons.mp hx with hx | hx
        · exact hx ▸ hble
        · exact hbound x hx
      · intro a ha
        rcases hmem a ha with ⟨hain, hb⟩ | ⟨x, hxin, hxa, hxb⟩
        · refine Or.inr ⟨c, by simp, ?_, ?_⟩
          · rw [hac, List.mem_singleton.mp hain]
          · rw [hb]
            exact le_add_of_nonneg_right f64Epsilon_nonneg
        · exact Or.inr ⟨x, by simp [hxin], hxa, hxb⟩
      · intro hres
        have := hemp hres
        simp at this
    · by_cases heps : |ucbValue qt total c - b| < (f64Epsilon : ℝ)
      · obtain ⟨res, bFin, hsl, hble, hbound, hmem, hemp⟩ :=
          ih b (best ++ [ac]) hall2
        refine ⟨res, bFin, ?_, hble, ?_, ?_, ?_⟩
        · show scoreLoop qt total (c :: cs2) (some b) best = _
          simp only [scoreLoop, hcv, if_false, hac, hgt, heps, if_true]
          exact hsl
        · intro x hx
          rcases List.mem_cons.mp hx with hx | hx
          · exact hx ▸ le_trans (not_lt.mp hgt) hble
          · exact hbound x hx
        · intro a ha
          rcases hmem a ha with ⟨hain, hb⟩ | ⟨x, hxin, hxa, hxb⟩
          · rcases List.mem_append.mp hain with hain | hain
            · exact Or.inl ⟨hain, hb⟩
            · refine Or.inr ⟨c, by simp, ?_, ?_⟩
              · rw [hac, List.mem_singleton.mp hain]
              · rw [hb]
                have h1 : b - ucbValue qt total c < (f64Epsilon : ℝ) :=
                  lt_of_le_of_lt (neg_sub (ucbValue qt total c) b ▸
                    neg_le_abs _) heps
                linarith
          · exact Or.inr ⟨x, by simp [hxin], hxa, hxb⟩
        · intro hres
          have := hemp hres
          simp at this
      · obtain ⟨res, bFin, hsl, hble, hbound, hmem, hemp⟩ := ih b best hall2
        refine ⟨res, bFin, ?_, hble, ?_, ?_, hemp⟩
        · show scoreLoop qt total (c :: cs2) (some b) best = _
          simp only [scoreLoop, hcv, if_false, hac, hgt, heps, if_false]
          exact hsl
        · intro x hx
          rcases List.mem_cons.mp hx with hx | hx
          · exact hx ▸ le_trans (not_lt.mp hgt) hble
          · exact hbound x hx
        · intro a ha
          rcases hmem a ha with ⟨hain, hb⟩ | ⟨x, hxin, hxa, hxb⟩
          · exact Or.inl ⟨hain, hb⟩
          · exact Or.inr ⟨x, by simp [hxin], hxa, hxb⟩

/-- C1 amended (select level): on a fully expanded node whose children
all carry an action and have at least one visit, UCB1::select consumes
one tie-break draw and returns the action of one of the children whose
code score — q_table lookup by child id plus C * sqrt(ln(max(T,1)) /
N_child) with T the SUM of the children's visit counts — is within
f64::EPSILON of the maximal code score over all children. -/
theorem C1_select_within_epsilon [DecidableEq A] (qt : QTable)
    (node : Node S A) (actions : List A) (σ : ℕ → ℕ) (k : ℕ)
    (huntried : ∀ x ∈ actions, ∃ ch ∈ node.children, ch.action = some x)
    (hvisits : ∀ c ∈ node.children, c.visits ≠ 0 ∧ c.action.isSome)
    (hne : node.children ≠ []) :
    ∃ a cw,
      UCB1.select qt node actions σ k = some (a, k + 1) ∧
      cw ∈ node.children ∧ cw.action = some a ∧
      ∀ c ∈ node.children,
        ucbValue qt ((node.children.map Node.visits).sum) c ≤
          ucbValue qt ((node.children.map Node.visits).sum) cw +
            (f64Epsilon : ℝ) := by
  have hfind : actions.find?
      (fun x => ! node.children.any fun ch => decide (ch.action = some x)) =
      none := by
    rw [List.find?_eq_none]
    intro x hx
    have hany : node.children.any (fun ch => decide (ch.action = some x)) =
        true := by
      obtain ⟨ch, hch, hcha⟩ := huntried x hx
      exact List.any_eq_true.mpr ⟨ch, hch, by simp [hcha]⟩
    simp [hany]
  obtain ⟨c0, cs, hc⟩ := List.exists_cons_of_ne_nil hne
  obtain ⟨h0v, h0a⟩ := hvisits c0 (by rw [hc]; simp)
  obtain ⟨a0, ha0⟩ := Option.isSome_iff_exists.mp h0a
  have hall2 : ∀ x ∈ cs, x.visits ≠ 0 ∧ x.action.isSome :=
    fun x hx => hvisits x (by rw [hc]; simp [hx])
  set T := (node.children.map Node.visits).sum with hT
  obtain ⟨res, bFin, hsl, hble, hbound, hmem, hemp⟩ :=
    scoreLoop_inr_spec qt T cs (ucbValue qt T c0) [a0] hall2
  have hloop : scoreLoop qt T node.children none [] = some (Sum.inr res) := by
    rw [hc]
    simp only [scoreLoop, h0v, if_false, ha0]
    exact hsl
  have hresne : res ≠ [] := by
    intro hres
    have := hemp hres
    simp at this
  have hlen : 0 < res.length := List.length_pos.mpr hresne
  obtain ⟨hg, hmod⟩ := genrand_pos res.length (σ k) hlen
  obtain ⟨a, hget⟩ : ∃ a, res.get? (σ k % res.length) = some a :=
    ⟨_, List.get?_eq_get hmod⟩
  have hamem : a ∈ res := List.get?_mem hget
  have hsel : UCB1.select qt node actions σ k = some (a, k + 1) := by
    unfold UCB1.select
    rw [hfind]
    simp only [← hT, hloop, hg, Option.some_bind]
    rw [hget]
    rfl
  rcases hmem a hamem with ⟨hain, hb⟩ | ⟨x, hxin, hxa, hxb⟩
  · refine ⟨a, c0, hsel, by rw [hc]; simp, ?_, ?_⟩
    · rw [ha0, List.mem_singleton.mp hain]
    · intro c hcmem
      rw [hc] at hcmem
      rcases List.mem_cons.mp hcmem with hcm | hcm
      · subst hcm
        exact le_add_of_nonneg_right f64Epsilon_nonneg
      · calc ucbValue qt _ c ≤ bFin := hbound c hcm
          _ = ucbValue qt _ c0 := hb
          _ ≤ _ := le_add_of_nonneg_right f64Epsilon_nonneg
  · refine ⟨a, x, hsel, by rw [hc]; simp [hxin], hxa, ?_⟩
    intro c hcmem
    rw [hc] at hcmem
    rcases List.mem_cons.mp hcmem with hcm | hcm
    · subst hcm
      exact le_trans hble hxb
    · exact le_trans (hbound c hcm) hxb


/-- C1 counterexample: on the fully expanded node pC1 the spec formula
(specUcbScore) gives the first child a score exactly 4 above the second
child's, so under the claimed scoring select would have to return action
0; but the code scores both children equally (the q-table lookup is 0 for
both — the mean rewards 4 and 0 are never read), so the random tie-break
fires and, with entropy 1, select returns action 1. -/
theorem C1_counterexample :
    UCB1.select ([] : QTable) pC1 [0, 1] (fun _ => 1) 0 = some (1, 1) ∧
    specUcbScore pC1 (Node.mk 1 1 (some 0) none 1 4 []) =
      specUcbScore pC1 (Node.mk 2 2 (some 1) none 1 0 []) + 4 := by
  have heq : ucbValue ([] : QTable) 2
      (Node.mk 2 2 (some 1) none 1 0 [] : Node ℕ ℕ) =
      ucbValue ([] : QTable) 2 (Node.mk 1 1 (some 0) none 1 4 []) := by
    simp [ucbValue, getQValue, List.lookup]
  have hngt : ¬ (ucbValue ([] : QTable) 2
      (Node.mk 2 2 (some 1) none 1 0 [] : Node ℕ ℕ) >
      ucbValue ([] : QTable) 2 (Node.mk 1 1 (some 0) none 1 4 [])) := by
    rw [heq]
    exact lt_irrefl _
  have heps : |ucbValue ([] : QTable) 2
      (Node.mk 2 2 (some 1) none 1 0 [] : Node ℕ ℕ) -
      ucbValue ([] : QTable) 2 (Node.mk 1 1 (some 0) none 1 4 [])| <
      (f64Epsilon : ℝ) := by
    rw [heq, sub_self, abs_zero]
    norm_num [f64Epsilon]
  have h1 : scoreLoop ([] : QTable) 2
      ([Node.mk 2 2 (some 1) none 1 0 []] : List (Node ℕ ℕ))
      (some (ucbValue ([] : QTable) 2 (Node.mk 1 1 (some 0) none 1 4 [])))
      [0] = some (Sum.inr [0, 1]) := by
    simp only [scoreLoop, Node.visits_mk, Node.action_mk, hngt, heps,
      if_true, if_false]
    norm_num [scoreLoop]
  have hloop : scoreLoop ([] : QTable) 2 pC1.children none [] =
      some (Sum.inr [0, 1]) := by
    show scoreLoop ([] : QTable) 2
      (Node.mk 1 1 (some 0) none 1 4 [] ::
        [Node.mk 2 2 (some 1) none 1 0 []]) none [] = _
    simp only [scoreLoop, Node.visits_mk, Node.action_mk]
    norm_num
    exact h1
  constructor
  · have hfind : List.find?
        (fun x => ! pC1.children.any fun ch => decide (ch.action = some x))
        [0, 1] = none := by decide
    have htot : (pC1.children.map Node.visits).sum = 2 := by decide
    unfold UCB1.select
    rw [hfind]
    simp only [htot, hloop, Option.some_bind]
    rfl
  · norm_num [specUcbScore, pC1]
    ring

/-- Witness for the amended C1 at the concrete node pC1. -/
theorem C1_select_within_epsilon_witness :
    (∀ x ∈ [0, 1], ∃ ch ∈ pC1.children, ch.action = some x) ∧
    (∀ c ∈ pC1.children, c.visits ≠ 0 ∧ c.action.isSome) ∧
    pC1.children ≠ [] ∧
    (∃ a cw,
      UCB1.select ([] : QTable) pC1 [0, 1] (fun _ => 1) 0 = some (a, 0 + 1) ∧
      cw ∈ pC1.children ∧ cw.action = some a ∧
      ∀ c ∈ pC1.children,
        ucbValue ([] : QTable) ((pC1.children.map Node.visits).sum) c ≤
          ucbValue ([] : QTable) ((pC1.children.map Node.visits).sum) cw +
            (f64Epsilon : ℝ)) :=
  ⟨by decide, by decide, by simp [pC1],
    C1_select_within_epsilon ([] : QTable) pC1 [0, 1] (fun _ => 1) 0
      (by decide) (by decide) (by simp [pC1])⟩


/-! ### C10: best_action is total on a non-empty root -/

theorem max_by_mem {α : Type} (cmp : α → α → Ordering) :
    ∀ (l : List α) (x : α), ∃ m, max_by cmp (x :: l) = some m ∧ m ∈ x :: l := by
  intro l
  induction l with
  | nil => intro x; exact ⟨x, rfl, by simp⟩
  | cons y ys ih =>
    intro x
    by_cases h : cmp x y = Ordering.gt
    · obtain ⟨m, hm, hmem⟩ := ih x
      refine ⟨m, ?_, ?_⟩
      · unfold max_by at hm ⊢
        simp only [List.foldl_cons] at hm ⊢
        simpa [h] using hm
      · rcases List.mem_cons.mp hmem with h2 | h2
        · simp [h2]
        · simp [h2]
    · obtain ⟨m, hm, hmem⟩ := ih y
      refine ⟨m, ?_, ?_⟩
      · unfold max_by at hm ⊢
        simp only [List.foldl_cons] at hm ⊢
        simpa [h] using hm
      · rcases List.mem_cons.mp hmem with h2 | h2
        · simp [h2]
        · simp [h2]

theorem softmaxWalk_some_lt :
    ∀ (ps : List ℝ) (r : ℝ) (i : ℕ),
      softmaxWalk ps r = some i → i < ps.length := by
  intro ps
  induction ps with
  | nil => intro r i h; simp [softmaxWalk] at h
  | cons p ps2 ih =>
    intro r i h
    by_cases hc : r - p ≤ 0
    · simp [softmaxWalk, hc] at h
      simp [List.length_cons]
      omega
    · simp [softmaxWalk, hc] at h
      obtain ⟨j, hj, hji⟩ := h
      have := ih (r - p) j hj
      simp [List.length_cons]
      omega

theorem heuristicLoop_spec :
    ∀ (cs win : List (Node S A)) (bestq : Option ℚ)
      (best : List (Node S A)),
      (bestq.isSome = true → best ≠ []) →
      (∀ x ∈ (heuristicLoop cs win bestq best).1, x ∈ win ∨ x ∈ cs) ∧
      (∀ x ∈ (heuristicLoop cs win bestq best).2, x ∈ best ∨ x ∈ cs) ∧
      ((win ≠ [] ∨ bestq.isSome = true ∨ cs ≠ []) →
        ((heuristicLoop cs win bestq best).1 ≠ [] ∨
          (heuristicLoop cs win bestq best).2 ≠ [])) := by
  intro cs
  induction cs with
  | nil =>
    intro win bestq best hyp
    refine ⟨fun x hx => Or.inl hx, fun x hx => Or.inl hx, ?_⟩
    rintro (h | h | h)
    · exact Or.inl h
    · exact Or.inr (hyp h)
    · exact absurd rfl h
  | cons c cs2 ih =>
    intro win bestq best hyp
    by_cases hwin : (match c.reward with
        | some r => decide (r > 0)
        | none => false) = true
    · have heq : heuristicLoop (c :: cs2) win bestq best =
          heuristicLoop cs2 (win ++ [c]) bestq best := by
        simp [heuristicLoop, hwin]
      obtain ⟨hw, hb, hne⟩ := ih (win ++ [c]) bestq best hyp
      rw [heq]
      refine ⟨?_, ?_, fun _ => hne (Or.inl (by simp))⟩
      · intro x hx
        rcases hw x hx with h2 | h2
        · rcases List.mem_append.mp h2 with h3 | h3
          · exact Or.inl h3
          · exact Or.inr (by simp [List.mem_singleton.mp h3])
        · exact Or.inr (by simp [h2])
      · intro x hx
        rcases hb x hx with h2 | h2
        · exact Or.inl h2
        · exact Or.inr (by simp [h2])
    · have hlift : ∀ (bq2 : Option ℚ) (best2 : List (Node S A)),
          heuristicLoop (c :: cs2) win bestq best =
            heuristicLoop cs2 win bq2 best2 →
          (bq2.isSome = true → best2 ≠ []) →
          (∀ x ∈ best2, x ∈ best ∨ x = c) →
          (bq2.isSome = true) →
          (∀ x ∈ (heuristicLoop (c :: cs2) win bestq best).1,
            x ∈ win ∨ x ∈ c :: cs2) ∧
          (∀ x ∈ (heuristicLoop (c :: cs2) win bestq best).2,
            x ∈ best ∨ x ∈ c :: cs2) ∧
          ((win ≠ [] ∨ bestq.isSome = true ∨ c :: cs2 ≠ []) →
            ((heuristicLoop (c :: cs2) win bestq best).1 ≠ [] ∨
              (heuristicLoop (c :: cs2) win bestq best).2 ≠ [])) := by
        intro bq2 best2 heq hyp2 hbest2 hsome2
        obtain ⟨hw, hb, hne⟩ := ih win bq2 best2 hyp2
        rw [heq]
        refine ⟨?_, ?_, fun _ => hne (Or.inr (Or.inl hsome2))⟩
        · intro x hx
          rcases hw x hx with h2 | h2
          · exact Or.inl h2
          · exact Or.inr (by simp [h2])
        · intro x hx
          rcases hb x hx with h2 | h2
          · rcases hbest2 x h2 with h3 | h3
            · exact Or.inl h3
            · exact Or.inr (by simp [h3])
          · exact Or.inr (by simp [h2])
      cases bestq with
      | none =>
        refine hlift (some c.q_value) [c] ?_ (fun _ => by simp)
          (fun x hx => Or.inr (List.mem_singleton.mp hx)) rfl
        simp [heuristicLoop, hwin]
      | some b =>
        have hunfold : heuristicLoop (c :: cs2) win (some b) best =
            (if c.q_value > b then heuristicLoop cs2 win (some c.q_value) [c]
             else if |c.q_value - b| < 1 / 10 ^ 9 then
               heuristicLoop cs2 win (some b) (best ++ [c])
             else heuristicLoop cs2 win (some b) best) := by
          show (if (match c.reward with
              | some r => decide (r > 0)
              | none => false) = true
            then heuristicLoop cs2 (win ++ [c]) (some b) best
            else
              if c.q_value > b then heuristicLoop cs2 win (some c.q_value) [c]
              else if |c.q_value - b| < 1 / 10 ^ 9 then
                heuristicLoop cs2 win (some b) (best ++ [c])
              else heuristicLoop cs2 win (some b) best) = _
          rw [if_neg hwin]
        by_cases hgt : c.q_value > b
        · refine hlift (some c.q_value) [c] ?_ (fun _ => by simp)
            (fun x hx => Or.inr (List.mem_singleton.mp hx)) rfl
          rw [hunfold, if_pos hgt]
        · by_cases heps : |c.q_value - b| < 1 / 10 ^ 9
          · refine hlift (some b) (best ++ [c]) ?_ (fun _ => by simp) ?_ rfl
            · rw [hunfold, if_neg hgt, if_pos heps]
            · intro x hx
              rcases List.mem_append.mp hx with h3 | h3
              · exact Or.inl h3
              · exact Or.inr (List.mem_singleton.mp h3)
          · refine hlift (some b) best ?_ (fun _ => hyp rfl)
              (fun x hx => Or.inl hx) rfl
            rw [hunfold, if_neg hgt, if_neg heps]


theorem probPick_isSome (children : List (Node S A)) (c0 : Node S A)
    (probs : List ℝ) (r : ℝ)
    (hlen : ∀ i, i < probs.length → i < children.length)
    (hsome : ∀ c ∈ children, c.action.isSome) (hc0 : c0 ∈ children) :
    ∃ a, probPick children c0 probs r = some (some a) := by
  unfold probPick
  cases hwalk : softmaxWalk probs r with
  | none =>
    obtain ⟨a, ha⟩ := Option.isSome_iff_exists.mp (hsome c0 hc0)
    exact ⟨a, by simp [ha]⟩
  | some i =>
    have hi := hlen i (softmaxWalk_some_lt probs r i hwalk)
    obtain ⟨c, hgc⟩ : ∃ c, children.get? i = some c :=
      ⟨_, List.get?_eq_get hi⟩
    obtain ⟨a, ha⟩ :=
      Option.isSome_iff_exists.mp (hsome c (List.get?_mem hgc))
    refine ⟨a, ?_⟩
    have hgc2 : children[i]? = some c := by
      rw [← List.get?_eq_getElem?]
      exact hgc
    simp [hgc2, ha]

/-- C10: whenever the root has at least one child, every child of which
carries an action (as all children created by get_outcome_child do),
best_action returns Some(action) for every strategy: each branch selects
one of the root's children and returns its action. -/
theorem C10_best_action_total [DecidableEq A] (root : Node S A)
    (σ : ℕ → ℕ) (k : ℕ) (hne : root.children ≠ [])
    (hsome : ∀ c ∈ root.children, c.action.isSome) :
    ∀ strat : Strategy, ∃ a, best_action root strat σ k = some (some a) := by
  obtain ⟨c0, cs, hc⟩ := List.exists_cons_of_ne_nil hne
  intro strat
  cases strat with
  | MostVisited =>
    obtain ⟨m, hm, hmem⟩ := max_by_mem (fun a b => cmpN a.visits b.visits) cs c0
    obtain ⟨a, ha⟩ :=
      Option.isSome_iff_exists.mp (hsome m (by rw [hc]; exact hmem))
    refine ⟨a, ?_⟩
    unfold best_action
    rw [hc]
    simp [hm, ha]
  | HighestQValue =>
    obtain ⟨m, hm, hmem⟩ :=
      max_by_mem (fun a b => cmpQ a.q_value b.q_value) cs c0
    obtain ⟨a, ha⟩ :=
      Option.isSome_iff_exists.mp (hsome m (by rw [hc]; exact hmem))
    refine ⟨a, ?_⟩
    unfold best_action
    rw [hc]
    simp [hm, ha]
  | Probabilistic =>
    obtain ⟨hg, -⟩ := genrand_pos 10000 (σ k) (by norm_num)
    unfold best_action
    rw [hc]
    simp only [hg]
    exact probPick_isSome (c0 :: cs) c0 _ _
      (fun i hi => by simpa using hi)
      (fun c hcm => hsome c (by rw [hc]; exact hcm)) (by simp)
  | HeuristicWin =>
    obtain ⟨hw, hb, hQ⟩ := heuristicLoop_spec (c0 :: cs) [] none [] (by simp)
    have hQ2 := hQ (Or.inr (Or.inr (by simp)))
    unfold best_action
    rw [hc]
    cases hpr : heuristicLoop (c0 :: cs) [] none [] with
    | mk w b =>
      rw [hpr] at hw hb hQ2
      simp only [hpr]
      by_cases hwe : w = []
      · have hbne : b ≠ [] := by
          rcases hQ2 with h | h
          · exact absurd (by simpa using hwe) h
          · simpa using h
        have hlen : 0 < b.length := List.length_pos.mpr hbne
        obtain ⟨hg2, hmod⟩ := genrand_pos b.length (σ k) hlen
        obtain ⟨c, hgc⟩ : ∃ c, b.get? (σ k % b.length) = some c :=
          ⟨_, List.get?_eq_get hmod⟩
        have hcmem : c ∈ root.children := by
          rcases hb c (List.get?_mem hgc) with h | h
          · simp at h
          · rw [hc]; simpa using h
        obtain ⟨a, ha⟩ := Option.isSome_iff_exists.mp (hsome c hcmem)
        refine ⟨a, ?_⟩
        have hgc2 : b[σ k % b.length]? = some c := by
          rw [← List.get?_eq_getElem?]
          exact hgc
        simp [hwe, hg2, hgc2, ha]
      · have hlen : 0 < w.length := List.length_pos.mpr hwe
        obtain ⟨hg2, hmod⟩ := genrand_pos w.length (σ k) hlen
        obtain ⟨c, hgc⟩ : ∃ c, w.get? (σ k % w.length) = some c :=
          ⟨_, List.get?_eq_get hmod⟩
        have hcmem : c ∈ root.children := by
          rcases hw c (List.get?_mem hgc) with h | h
          · simp at h
          · rw [hc]; simpa using h
        obtain ⟨a, ha⟩ := Option.isSome_iff_exists.mp (hsome c hcmem)
        refine ⟨a, ?_⟩
        have hwe2 : w.isEmpty = false := by
          rw [← Bool.not_eq_true, List.isEmpty_iff]
          exact hwe
        have hgc2 : w[σ k % w.length]? = some c := by
          rw [← List.get?_eq_getElem?]
          exact hgc
        simp [hwe2, hg2, hgc2, ha]

/-- Witness for C10 at the concrete root rC5 (two children, both with
actions), instantiated at the MostVisited strategy among others. -/
theorem C10_best_action_total_witness :
    rC5.children ≠ [] ∧ (∀ c ∈ rC5.children, c.action.isSome) ∧
    ∀ strat : Strategy, ∃ a,
      best_action rC5 strat (fun _ => 3) 0 = some (some a) :=
  ⟨by simp [rC5], by decide,
    C10_best_action_total rC5 (fun _ => 3) 0 (by simp [rC5]) (by decide)⟩

end Mct
